import Mathlib

/-!
# Verification of `vllm/spec_decode/multi_proposers_worker.py`

A shallow embedding of the `MultiProposersWorker` coordinator: the strategy
registry, the capability probe (`is_multi_step_worker_instance`), the selection
policies (`_get_proposer_for_this_step`), the partitioned proposal operation
(`_get_combined_spec_proposals`), the execution-step delegation
(`execute_model`), and the cache-resource broadcast operations.

Python dynamic values are modelled explicitly: a function that can fall off the
end without `return` yields `Option Bool` (with `none` for Python `None`), a
`dict` keyed by insertion order becomes an association list, and the in-place
mutation of `SpecDecodeParams` is made visible by returning the updated batch
alongside the result.
-/

namespace MultiProposers

/-- A strategy backend handle.  `multiStep` corresponds to a `MultiStepWorker`
instance, `smallerTp` to a `SmallerTpProposerWorker` wrapper whose optional
field models the presence or absence of the `_worker` attribute, and `other`
to every remaining proposer class (e.g. the n-gram worker). -/
inductive Worker : Type where
  | multiStep : Worker
  | smallerTp : Option Worker → Worker
  | other : Worker

/-- Embedding of `MultiProposersWorker.is_multi_step_worker_instance`.
The Python function returns `True` for a `MultiStepWorker`, recurses through a
`SmallerTpProposerWorker` that has a `_worker` attribute, returns `False` in
the `else` branch, and *falls off the end* (Python `None`) for a
`SmallerTpProposerWorker` without a `_worker` attribute; the missing-return
path is the `none` value. -/
def is_multi_step_worker_instance : Worker → Option Bool
  | Worker.multiStep => some true
  | Worker.smallerTp (some w) => is_multi_step_worker_instance w
  | Worker.smallerTp none => none
  | Worker.other => some false

/-- Python truthiness of the probe's return value, as used by every caller
(`if self.is_multi_step_worker_instance(worker):`): `None` is falsy. -/
def truthy (r : Option Bool) : Bool :=
  r.getD false

/-- The probe's result coerced the way callers consume it. -/
def isStepping (w : Worker) : Bool :=
  truthy (is_multi_step_worker_instance w)

/-- Embedding of `MultiProposersWorker.determine_num_available_blocks`: scan
`self._workers.values()` in order, return the first model-stepping worker's
own `determine_num_available_blocks()` (the opaque backend call is the
parameter `fB`), else the sentinel `(-1, -1)`. -/
def determine_num_available_blocks (fB : Worker → Int × Int)
    (workerValues : List Worker) : Int × Int :=
  match workerValues.find? (fun w => isStepping w) with
  | some w => fB w
  | none => (-1, -1)

/-- Embedding of `MultiProposersWorker.get_cache_block_size_bytes`: the first
model-stepping worker's `get_cache_block_size_bytes()` (opaque call `fS`),
else `0`. -/
def get_cache_block_size_bytes (fS : Worker → Nat)
    (workerValues : List Worker) : Nat :=
  match workerValues.find? (fun w => isStepping w) with
  | some w => fS w
  | none => 0

/-- Embedding of `MultiProposersWorker.initialize_cache`: the loop calls
`worker.initialize_cache(...)` on every model-stepping worker and returns
nothing; we record the list of workers the call is issued to. -/
def initialize_cache_calls (workerValues : List Worker) : List Worker :=
  workerValues.filter (fun w => isStepping w)

/-- One `SequenceGroupMetadata` entry: `spec_decode_params` is the optional
per-sequence proposer request (`sd_params.get_proposer()` collapsed into the
stored string, `none` when `spec_decode_params` is `None`), and `data` is an
abstract payload distinguishing the sequence. -/
structure SeqItem where
  spec_decode_params : Option String
  data : Nat
deriving DecidableEq, Repr

/-- The two failure conditions `_get_proposer_for_this_step` can raise:
`NotImplementedError` for the reserved quality policy, `ValueError` for an
unrecognized policy. -/
inductive SelectError where
  | notImplemented
  | unsupportedPolicy
deriving DecidableEq, Repr

/-- The `proposal_latency` scan of `_get_proposer_for_this_step`: walk the
batch keeping the running `chosen_proposer`; a present assignment equal to
`'[ngram]'` wins outright (`break`), a Registry-valid assignment overwrites
the running choice, an unknown one is skipped (`continue`). -/
def latencyLoop (valid : List String) : List SeqItem → String → String
  | [], chosen => chosen
  | s :: rest, chosen =>
    match s.spec_decode_params with
    | none => latencyLoop valid rest chosen
    | some proposer =>
      if proposer = "[ngram]" then proposer
      else if proposer ∈ valid then latencyLoop valid rest proposer
      else latencyLoop valid rest chosen

/-- One step of the `popularity` tally: `proposer_count[p] += 1`, creating the
key with the dict's insertion order (append at the end) when absent. -/
def bumpCount : List (String × Nat) → String → List (String × Nat)
  | [], p => [(p, 1)]
  | (k, v) :: rest, p =>
    if k = p then (k, v + 1) :: rest else (k, v) :: bumpCount rest p

/-- The `popularity` counting loop of `_get_proposer_for_this_step`: tally one
per sequence with a present, Registry-valid assignment; skip the rest. -/
def countLoop (valid : List String) : List SeqItem → List (String × Nat) → List (String × Nat)
  | [], acc => acc
  | s :: rest, acc =>
    match s.spec_decode_params with
    | none => countLoop valid rest acc
    | some proposer =>
      if proposer ∈ valid then countLoop valid rest (bumpCount acc proposer)
      else countLoop valid rest acc

/-- Python `max(proposer_count, key=proposer_count.get)`: fold over the dict
entries in insertion order, replacing the running best only on a strictly
larger count, so the first maximal entry wins. -/
def maxPairFirst : String × Nat → List (String × Nat) → String × Nat
  | best, [] => best
  | best, p :: rest => maxPairFirst (if best.2 < p.2 then p else best) rest

/-- The `popularity` choice: `chosen_proposer` stays `'[ngram]'` when the
tally dict is empty, otherwise the first key attaining the maximum count. -/
def popularityChoice (counts : List (String × Nat)) : String :=
  match counts with
  | [] => "[ngram]"
  | c :: rest => (maxPairFirst c rest).1

/-- Embedding of `MultiProposersWorker._get_proposer_for_this_step` with
`valid` standing for `list(self._workers.keys())`.  The Python default for
`schedule_policy` is `"proposal_latency"`; a `None` or unrecognized value
reaches the final `else` and raises `ValueError`. -/
def get_proposer_for_this_step (valid : List String) (batch : List SeqItem)
    (schedule_policy : Option String) : Except SelectError String :=
  if schedule_policy = some "popularity" then
    Except.ok (popularityChoice (countLoop valid batch []))
  else if schedule_policy = some "proposal_latency" then
    Except.ok (latencyLoop valid batch "[ngram]")
  else if schedule_policy = some "proposal_quality" then
    Except.error SelectError.notImplemented
  else
    Except.error SelectError.unsupportedPolicy

/-- The present, Registry-valid assignments of a batch, in batch order: the
entries that can influence the selection policies. -/
def validAssignments (valid : List String) (batch : List SeqItem) : List String :=
  batch.filterMap (fun s => s.spec_decode_params.bind
    (fun p => if p ∈ valid then some p else none))

/-- `proposer_count.get(p)`: the value stored at key `p` in the tally dict. -/
def lookupCount : List (String × Nat) → String → Option Nat
  | [], _ => none
  | (k, v) :: rest, p => if k = p then some v else lookupCount rest p

/-- The keys of the tally dict, in insertion (iteration) order. -/
def keysOf (m : List (String × Nat)) : List String :=
  m.map Prod.fst

/-- The index of the first occurrence of `p` in a list (its length when `p` is
absent): the position at which a strategy id first appears in a batch's valid
assignments. -/
def firstIdx (p : String) : List String → Nat
  | [] => 0
  | a :: l => if a = p then 0 else firstIdx p l + 1

/-- The registry `self._workers`: a dict from proposer name to worker handle,
in insertion order. -/
def regKeys (reg : List (String × Worker)) : List String :=
  reg.map Prod.fst

/-- `self._workers[p]` as a partial lookup (`none` models `KeyError`). -/
def lookupWorker : List (String × Worker) → String → Option Worker
  | [], _ => none
  | (k, w) :: rest, p => if k = p then some w else lookupWorker rest p

/-- One partition-dict update of `_get_combined_spec_proposals`:
`proposer_requests[proposer].append(seq)` and
`original_indices[proposer].append(idx)` happen in lockstep, so one
association list from proposer to `(original index, sequence)` pairs models
both dicts; a missing key is created at the end (dict insertion order). -/
def addToGroup (g : List (String × List (Nat × SeqItem))) (p : String)
    (idx : Nat) (s : SeqItem) : List (String × List (Nat × SeqItem)) :=
  match g with
  | [] => [(p, [(idx, s)])]
  | (k, ms) :: rest =>
    if k = p then (k, ms ++ [(idx, s)]) :: rest
    else (k, ms) :: addToGroup rest p idx s

/-- The partition loop of `_get_combined_spec_proposals` (lines 224-235):
enumerate the batch; a sequence with `spec_decode_params` set is routed to its
proposer's group, an unknown proposer being replaced by `'[ngram]'` (locally,
without `set_proposer`); a sequence without `spec_decode_params` is not routed
anywhere. -/
def partitionLoop (valid : List String) :
    Nat → List SeqItem → List (String × List (Nat × SeqItem))
      → List (String × List (Nat × SeqItem))
  | _, [], g => g
  | idx, s :: rest, g =>
    match s.spec_decode_params with
    | some p =>
      partitionLoop valid (idx + 1) rest
        (addToGroup g (if p ∈ valid then p else "[ngram]") idx s)
    | none => partitionLoop valid (idx + 1) rest g

/-- One group's merge step (lines 266-270): the group's backend produced, for
the sub-batch `members.map Prod.snd`, the aligned entries
`members.map (f p ∘ Prod.snd)` (the opaque per-sequence backend output is the
parameter `f`); entry `i` is scattered to `merged[members[i].1]`.  The three
parallel output lists (`token_ids`, `probs`, `lens`) are written in lockstep,
so a single list of abstract entries models all three. -/
def scatterGroup {α : Type} (f : String → SeqItem → α) (p : String)
    (members : List (Nat × SeqItem)) (merged : List (Option α)) :
    List (Option α) :=
  members.foldl (fun m q => m.set q.1 (some (f p q.2))) merged

/-- The merge loop of `_get_combined_spec_proposals` (lines 263-270): iterate
the groups in dict order and scatter each group's proposals back to the
original indices. -/
def mergeLoop {α : Type} (f : String → SeqItem → α)
    (groups : List (String × List (Nat × SeqItem)))
    (merged : List (Option α)) : List (Option α) :=
  groups.foldl (fun m pg => scatterGroup f pg.1 pg.2 m) merged

/-- `torch.stack` over a list of collected slots: raises (`none`) when a slot
was never written (`merged[idx]` still `None`). -/
def stackList {α : Type} : List (Option α) → Option (List α)
  | [] => some []
  | none :: _ => none
  | some a :: rest => (stackList rest).map (fun l => a :: l)

/-- `torch.stack` itself also raises on an empty tensor list. -/
def stackAll {α : Type} : List (Option α) → Option (List α)
  | [] => none
  | x :: rest => stackList (x :: rest)

/-- Embedding of `MultiProposersWorker._get_combined_spec_proposals`: the
merged proposals (or `none` for the raising paths) together with the batch as
the caller observes it afterwards; the partition step never calls
`set_proposer`, so the batch is returned unchanged. -/
def get_combined_spec_proposals {α : Type} (f : String → SeqItem → α)
    (valid : List String) (batch : List SeqItem) :
    Option (List α) × List SeqItem :=
  (stackAll (mergeLoop f (partitionLoop valid 0 batch [])
      (List.replicate batch.length none)), batch)

/-- Embedding of `MultiProposersWorker.get_spec_proposals`: choose one
proposer for the whole batch under the `proposal_latency` policy and delegate
the full request to it (`fprop` is the chosen worker's opaque
`get_spec_proposals`); the scan never calls `set_proposer`, so the batch is
returned unchanged. -/
def get_spec_proposals {α : Type} (fprop : String → List SeqItem → α)
    (valid : List String) (batch : List SeqItem) :
    Except SelectError α × List SeqItem :=
  match get_proposer_for_this_step valid batch (some "proposal_latency") with
  | Except.ok p => (Except.ok (fprop p batch), batch)
  | Except.error e => (Except.error e, batch)

/-- How the `execute_model` scan loop ended. -/
inductive ScanResult : Type where
  | noBreak : ScanResult
  | keyError : ScanResult
  | breakAt : String → ScanResult
deriving DecidableEq, Repr

/-- The scan loop of `execute_model` (lines 112-124): for each sequence with
`spec_decode_params` set, coerce an unknown proposer to `'[ngram]'` in place
(`set_proposer`), then probe `self._workers[proposer]` (a `KeyError` when the
fallback key itself is missing) and `break` on a model-stepping worker.
Returns the batch as mutated so far together with how the loop ended. -/
def executeScan (reg : List (String × Worker)) :
    List SeqItem → List SeqItem × ScanResult
  | [] => ([], ScanResult.noBreak)
  | s :: rest =>
    match s.spec_decode_params with
    | none =>
      let r := executeScan reg rest
      (s :: r.1, r.2)
    | some p =>
      let p' := if p ∈ regKeys reg then p else "[ngram]"
      let s' : SeqItem := ⟨some p', s.data⟩
      match lookupWorker reg p' with
      | none => (s' :: rest, ScanResult.keyError)
      | some w =>
        if isStepping w then (s' :: rest, ScanResult.breakAt p')
        else
          let r := executeScan reg rest
          (s' :: r.1, r.2)

/-- What `execute_model` does: return `[]`, delegate the whole (possibly
mutated) request to `self._workers[p].execute_model`, or raise `KeyError`. -/
inductive ExecResult : Type where
  | emptyList : ExecResult
  | delegated : String → List SeqItem → ExecResult
  | keyError : ExecResult
deriving DecidableEq, Repr

/-- Embedding of `MultiProposersWorker.execute_model` (lines 92-128): a `None`
request returns `[]` at once; otherwise the scan loop runs and either the
`for`-`else` returns `[]` or the entire batch is delegated to the breaking
proposer's worker.  The second component is the request as the caller
observes it after the call (mutations included). -/
def execute_model (reg : List (String × Worker)) :
    Option (List SeqItem) → ExecResult × Option (List SeqItem)
  | none => (ExecResult.emptyList, none)
  | some batch =>
    match executeScan reg batch with
    | (batch', ScanResult.noBreak) => (ExecResult.emptyList, some batch')
    | (batch', ScanResult.keyError) => (ExecResult.keyError, some batch')
    | (batch', ScanResult.breakAt p) =>
      (ExecResult.delegated p batch', some batch')

/-- The per-sequence effect of one `execute_model` scan step on
`spec_decode_params`: an unknown proposer is coerced to `'[ngram]'`. -/
def coerceSeq (reg : List (String × Worker)) (s : SeqItem) : SeqItem :=
  match s.spec_decode_params with
  | none => s
  | some p => ⟨some (if p ∈ regKeys reg then p else "[ngram]"), s.data⟩

/-- Proof-support (not from the source): the members the partition step is
expected to put into group `p`, scanning `l` with running index `idx`. -/
def expectedMembers (valid : List String) (p : String) :
    Nat → List SeqItem → List (Nat × SeqItem)
  | _, [] => []
  | idx, s :: rest =>
    match s.spec_decode_params with
    | some q =>
      if (if q ∈ valid then q else "[ngram]") = p then
        (idx, s) :: expectedMembers valid p (idx + 1) rest
      else
        expectedMembers valid p (idx + 1) rest
    | none => expectedMembers valid p (idx + 1) rest

/-- Proof-support: association lookup in the partition state. -/
def groupLookup : List (String × List (Nat × SeqItem)) → String
    → Option (List (Nat × SeqItem))
  | [], _ => none
  | (k, ms) :: rest, p => if k = p then some ms else groupLookup rest p

/-- Proof-support: the group keys in dict insertion order. -/
def groupKeys (g : List (String × List (Nat × SeqItem))) : List String :=
  g.map Prod.fst

/-- Proof-support: the proposer the `execute_model` scan resolves for a
sequence (unknown ids replaced by the fallback tag), `none` when the sequence
carries no assignment. -/
def resolvedProposer (reg : List (String × Worker)) (t : SeqItem) :
    Option String :=
  t.spec_decode_params.map (fun q => if q ∈ regKeys reg then q else "[ngram]")

/-- Proof-support: the scan passes over this sequence without breaking —
either it carries no assignment (no probe at all) or its resolved proposer's
worker exists and is not model-stepping. -/
def nonSteppingSeq (reg : List (String × Worker)) (t : SeqItem) : Bool :=
  match t.spec_decode_params with
  | none => true
  | some q =>
    match lookupWorker reg (if q ∈ regKeys reg then q else "[ngram]") with
    | none => false
    | some u => ! isStepping u

/-- Proof-support: the sequence's resolved proposer's worker exists and is
model-stepping — the scan breaks here. -/
def steppingSeq (reg : List (String × Worker)) (t : SeqItem) : Bool :=
  match t.spec_decode_params with
  | none => false
  | some q =>
    match lookupWorker reg (if q ∈ regKeys reg then q else "[ngram]") with
    | none => false
    | some u => isStepping u

/-- Proof-support: the sequence carries an assignment naming a proposer
absent from the registry. -/
def unknownAssigned (reg : List (String × Worker)) (t : SeqItem) : Bool :=
  match t.spec_decode_params with
  | none => false
  | some q => ! decide (q ∈ regKeys reg)

end MultiProposers

namespace MultiProposers

/-- C7 failing input: the probe applied to a `SmallerTpProposerWorker` with no
`_worker` attribute falls off the end of the function and returns Python
`None`, not the boolean `False`; on the other backends it behaves as claimed. -/
theorem is_multi_step_worker_instance_none_on_bare_wrapper :
    is_multi_step_worker_instance (Worker.smallerTp none) = none ∧
    is_multi_step_worker_instance Worker.multiStep = some true ∧
    is_multi_step_worker_instance Worker.other = some false ∧
    is_multi_step_worker_instance (Worker.smallerTp (some Worker.multiStep)) = some true ∧
    is_multi_step_worker_instance (Worker.smallerTp (some Worker.other)) = some false := by
  refine ⟨rfl, rfl, rfl, rfl, rfl⟩

/-- C10: when no registered worker is classified model-stepping by the probe,
`determine_num_available_blocks` returns the sentinel `(-1, -1)`,
`get_cache_block_size_bytes` returns `0`, and `initialize_cache` issues no
backend call. -/
theorem cache_ops_defaults_without_stepping_worker
    (fB : Worker → Int × Int) (fS : Worker → Nat) (ws : List Worker)
    (h : ∀ w ∈ ws, isStepping w = false) :
    determine_num_available_blocks fB ws = (-1, -1) ∧
    get_cache_block_size_bytes fS ws = 0 ∧
    initialize_cache_calls ws = [] := by
  have hfind : ws.find? (fun w => isStepping w) = none := by
    exact List.find?_eq_none.mpr (fun w hw => by simp [h w hw])
  refine ⟨?_, ?_, ?_⟩
  · simp [determine_num_available_blocks, hfind]
  · simp [get_cache_block_size_bytes, hfind]
  · exact List.filter_eq_nil_iff.mpr (fun w hw => by simp [h w hw])

/-- Witness for C10 on a concrete registry containing only a heuristic worker
and a bare wrapper (neither is model-stepping). -/
theorem cache_ops_defaults_witness :
    determine_num_available_blocks (fun _ => (7, 7)) [Worker.other, Worker.smallerTp none]
      = (-1, -1) ∧
    get_cache_block_size_bytes (fun _ => 5) [Worker.other, Worker.smallerTp none] = 0 ∧
    initialize_cache_calls [Worker.other, Worker.smallerTp none] = [] :=
  cache_ops_defaults_without_stepping_worker (fun _ => (7, 7)) (fun _ => 5)
    [Worker.other, Worker.smallerTp none] (by decide)

theorem gp_latency_eq (valid : List String) (b : List SeqItem) :
    get_proposer_for_this_step valid b (some "proposal_latency")
      = Except.ok (latencyLoop valid b "[ngram]") := rfl

theorem gp_popularity_eq (valid : List String) (b : List SeqItem) :
    get_proposer_for_this_step valid b (some "popularity")
      = Except.ok (popularityChoice (countLoop valid b [])) := rfl

theorem latencyLoop_of_mem_fallback (valid : List String) :
    ∀ (l : List SeqItem) (chosen : String),
      (∃ t ∈ l, t.spec_decode_params = some "[ngram]") →
      latencyLoop valid l chosen = "[ngram]" := by
  intro l
  induction l with
  | nil => rintro chosen ⟨t, ht, -⟩; cases ht
  | cons s rest ih =>
    rintro chosen ⟨t, ht, hfb⟩
    rcases List.mem_cons.mp ht with rfl | htr
    · simp [latencyLoop, hfb]
    · cases hs : s.spec_decode_params with
      | none => simpa [latencyLoop, hs] using ih chosen ⟨t, htr, hfb⟩
      | some p =>
        by_cases hp : p = "[ngram]"
        · simp [latencyLoop, hs, hp]
        · by_cases hv : p ∈ valid
          · simpa [latencyLoop, hs, hp, hv] using ih p ⟨t, htr, hfb⟩
          · simpa [latencyLoop, hs, hp, hv] using ih chosen ⟨t, htr, hfb⟩

/-- C4: under the latency-greedy policy, a batch containing a fallback-assigned
sequence yields the fallback tag, wherever that sequence occurs and whatever
the other assignments are; and the result does not depend on anything after
that sequence (the scan stops there). -/
theorem latency_fallback_short_circuit (valid : List String)
    (pre rest rest' : List SeqItem) (s : SeqItem)
    (h : s.spec_decode_params = some "[ngram]") :
    get_proposer_for_this_step valid (pre ++ s :: rest) (some "proposal_latency")
        = Except.ok "[ngram]" ∧
    get_proposer_for_this_step valid (pre ++ s :: rest) (some "proposal_latency")
        = get_proposer_for_this_step valid (pre ++ s :: rest') (some "proposal_latency") := by
  have key : ∀ (r : List SeqItem),
      latencyLoop valid (pre ++ s :: r) "[ngram]" = "[ngram]" := fun r =>
    latencyLoop_of_mem_fallback valid _ _ ⟨s, by simp, h⟩
  constructor
  · rw [gp_latency_eq, key rest]
  · rw [gp_latency_eq, gp_latency_eq, key rest, key rest']

/-- Closed instance of `latency_fallback_short_circuit` on the batch
`[A, [ngram]]` against registry keys `["[ngram]", "A"]`. -/
theorem latency_fallback_short_circuit_witness :
    (SeqItem.mk (some "[ngram]") 1).spec_decode_params = some "[ngram]" ∧
    get_proposer_for_this_step ["[ngram]", "A"]
        ([SeqItem.mk (some "A") 0] ++ SeqItem.mk (some "[ngram]") 1 :: [])
        (some "proposal_latency") = Except.ok "[ngram]" :=
  ⟨by decide,
   (latency_fallback_short_circuit ["[ngram]", "A"] [SeqItem.mk (some "A") 0] []
      [SeqItem.mk (some "B") 2] (SeqItem.mk (some "[ngram]") 1) rfl).1⟩

theorem getLast?_cons_getD (a c : String) (l : List String) :
    ((a :: l).getLast?.getD c) = (l.getLast?.getD a) := by
  induction l generalizing a c with
  | nil => rfl
  | cons b t ih => rw [List.getLast?_cons_cons, ih b c, ih b a]

theorem latencyLoop_eq_lastValid (valid : List String) :
    ∀ (l : List SeqItem) (chosen : String),
      (∀ t ∈ l, t.spec_decode_params ≠ some "[ngram]") →
      latencyLoop valid l chosen = ((validAssignments valid l).getLast?.getD chosen) := by
  intro l
  induction l with
  | nil => intro chosen _; rfl
  | cons s rest ih =>
    intro chosen h
    have hrest : ∀ t ∈ rest, t.spec_decode_params ≠ some "[ngram]" :=
      fun t ht => h t (List.mem_cons_of_mem s ht)
    cases hs : s.spec_decode_params with
    | none =>
      rw [show latencyLoop valid (s :: rest) chosen = latencyLoop valid rest chosen by
            simp [latencyLoop, hs]]
      rw [show validAssignments valid (s :: rest) = validAssignments valid rest by
            simp [validAssignments, hs]]
      exact ih chosen hrest
    | some p =>
      have hp : p ≠ "[ngram]" := by
        intro hcon; exact h s (List.mem_cons_self s rest) (by rw [hs, hcon])
      by_cases hv : p ∈ valid
      · rw [show latencyLoop valid (s :: rest) chosen = latencyLoop valid rest p by
              simp [latencyLoop, hs, hp, hv]]
        rw [show validAssignments valid (s :: rest) = p :: validAssignments valid rest by
              simp [validAssignments, hs, hv]]
        rw [getLast?_cons_getD]
        exact ih p hrest
      · rw [show latencyLoop valid (s :: rest) chosen = latencyLoop valid rest chosen by
              simp [latencyLoop, hs, hp, hv]]
        rw [show validAssignments valid (s :: rest) = validAssignments valid rest by
              simp [validAssignments, hs, hv]]
        exact ih chosen hrest

/-- C5: under the latency-greedy policy, when no sequence is assigned the
fallback tag the result is the last present, Registry-valid assignment in
batch order (later valid assignments override earlier ones, unknown ids are
skipped), and the fallback tag when no such assignment exists (in particular
for an empty or fully unassigned batch). -/
theorem latency_last_valid_wins (valid : List String) (batch : List SeqItem)
    (h : ∀ s ∈ batch, s.spec_decode_params ≠ some "[ngram]") :
    get_proposer_for_this_step valid batch (some "proposal_latency")
        = Except.ok ((validAssignments valid batch).getLast?.getD "[ngram]") ∧
    (validAssignments valid batch = [] →
      get_proposer_for_this_step valid batch (some "proposal_latency")
        = Except.ok "[ngram]") := by
  have key := latencyLoop_eq_lastValid valid batch "[ngram]" h
  constructor
  · rw [gp_latency_eq, key]
  · intro hva; rw [gp_latency_eq, key, hva]; rfl

/-- Closed instance of `latency_last_valid_wins` on the batch `[A, B]`:
the last valid assignment `B` is chosen. -/
theorem latency_last_valid_wins_witness :
    (∀ s ∈ [SeqItem.mk (some "A") 0, SeqItem.mk (some "B") 1],
        s.spec_decode_params ≠ some "[ngram]") ∧
    get_proposer_for_this_step ["[ngram]", "A", "B"]
        [SeqItem.mk (some "A") 0, SeqItem.mk (some "B") 1] (some "proposal_latency")
      = Except.ok ((validAssignments ["[ngram]", "A", "B"]
          [SeqItem.mk (some "A") 0, SeqItem.mk (some "B") 1]).getLast?.getD "[ngram]") :=
  ⟨by decide,
   (latency_last_valid_wins ["[ngram]", "A", "B"]
      [SeqItem.mk (some "A") 0, SeqItem.mk (some "B") 1] (by decide)).1⟩

/-- C9: `_get_proposer_for_this_step` raises `ValueError` (the
`unsupportedPolicy` condition) for every policy other than the three named
ones, and `NotImplementedError` for `proposal_quality`; in both cases no
strategy id is produced. -/
theorem select_policy_error_conditions (valid : List String) (batch : List SeqItem)
    (policy : Option String)
    (h1 : policy ≠ some "popularity") (h2 : policy ≠ some "proposal_latency")
    (h3 : policy ≠ some "proposal_quality") :
    get_proposer_for_this_step valid batch policy
        = Except.error SelectError.unsupportedPolicy ∧
    get_proposer_for_this_step valid batch (some "proposal_quality")
        = Except.error SelectError.notImplemented := by
  refine ⟨?_, rfl⟩
  unfold get_proposer_for_this_step
  rw [if_neg h1, if_neg h2, if_neg h3]

/-- Closed instance of `select_policy_error_conditions` at the unrecognized
policy string `"invalid"`. -/
theorem select_policy_error_conditions_witness :
    ((some "invalid" : Option String) ≠ some "popularity") ∧
    get_proposer_for_this_step ["[ngram]"] [] (some "invalid")
        = Except.error SelectError.unsupportedPolicy ∧
    get_proposer_for_this_step ["[ngram]"] [] (some "proposal_quality")
        = Except.error SelectError.notImplemented :=
  ⟨by decide,
   select_policy_error_conditions ["[ngram]"] [] (some "invalid")
     (by decide) (by decide) (by decide)⟩

theorem countLoop_eq_foldl (valid : List String) :
    ∀ (batch : List SeqItem) (acc : List (String × Nat)),
      countLoop valid batch acc = (validAssignments valid batch).foldl bumpCount acc := by
  intro batch
  induction batch with
  | nil => intro acc; rfl
  | cons s rest ih =>
    intro acc
    cases hs : s.spec_decode_params with
    | none => simp [countLoop, validAssignments, hs, ih, List.filterMap_cons]
    | some p =>
      by_cases hv : p ∈ valid
      · simp [countLoop, validAssignments, hs, hv, ih, List.filterMap_cons]
      · simp [countLoop, validAssignments, hs, hv, ih, List.filterMap_cons]

theorem lookupCount_bumpCount (m : List (String × Nat)) (p q : String) :
    lookupCount (bumpCount m p) q =
      if q = p then some ((lookupCount m p).getD 0 + 1) else lookupCount m q := by
  induction m with
  | nil =>
    by_cases h : q = p
    · subst h; simp [bumpCount, lookupCount]
    · have h' : ¬ p = q := fun hc => h hc.symm
      simp [bumpCount, lookupCount, h, h']
  | cons kv rest ih =>
    obtain ⟨k, v⟩ := kv
    by_cases hk : k = p
    · subst hk
      by_cases hq : q = k
      · subst hq; simp [bumpCount, lookupCount]
      · have hq' : ¬ k = q := fun hc => hq hc.symm
        simp [bumpCount, lookupCount, hq, hq']
    · by_cases hq : q = p
      · subst hq; simp [bumpCount, lookupCount, hk, ih]
      · by_cases hkq : k = q
        · simp [bumpCount, lookupCount, hk, hq, hkq]
        · simp [bumpCount, lookupCount, hk, hq, hkq, ih]

theorem keysOf_bumpCount (m : List (String × Nat)) (p : String) :
    keysOf (bumpCount m p) =
      if p ∈ keysOf m then keysOf m else keysOf m ++ [p] := by
  induction m with
  | nil => simp [bumpCount, keysOf]
  | cons kv rest ih =>
    obtain ⟨k, v⟩ := kv
    have hcons : keysOf ((k, v) :: rest) = k :: keysOf rest := rfl
    by_cases hk : k = p
    · subst hk; simp [bumpCount, keysOf]
    · have hb : bumpCount ((k, v) :: rest) p = (k, v) :: bumpCount rest p := by
        simp [bumpCount, hk]
      by_cases hm : p ∈ keysOf rest
      · rw [hb, show keysOf ((k, v) :: bumpCount rest p)
              = k :: keysOf (bumpCount rest p) from rfl,
            ih, if_pos hm, hcons, if_pos (List.mem_cons_of_mem k hm)]
      · have hp : p ∉ keysOf ((k, v) :: rest) := by
          rw [hcons]
          intro hc
          rcases List.mem_cons.mp hc with hc | hc
          · exact hk hc.symm
          · exact hm hc
        rw [hb, show keysOf ((k, v) :: bumpCount rest p)
              = k :: keysOf (bumpCount rest p) from rfl,
            ih, if_neg hm, hcons]
        rw [if_neg (show p ∉ k :: keysOf rest from hcons ▸ hp)]
        exact (List.cons_append k (keysOf rest) [p]).symm

theorem lookupCount_eq_none_iff (m : List (String × Nat)) (p : String) :
    lookupCount m p = none ↔ p ∉ keysOf m := by
  induction m with
  | nil => simp [lookupCount, keysOf]
  | cons kv rest ih =>
    obtain ⟨k, v⟩ := kv
    have hcons : keysOf ((k, v) :: rest) = k :: keysOf rest := rfl
    by_cases hk : k = p
    · subst hk; simp [lookupCount, keysOf]
    · rw [show lookupCount ((k, v) :: rest) p = lookupCount rest p by
            simp [lookupCount, hk],
          hcons, ih]
      constructor
      · intro h hc
        rcases List.mem_cons.mp hc with hc | hc
        · exact hk hc.symm
        · exact h hc
      · intro h hc
        exact h (List.mem_cons_of_mem k hc)

theorem firstIdx_append_of_mem (p : String) :
    ∀ (l l' : List String), p ∈ l → firstIdx p (l ++ l') = firstIdx p l := by
  intro l
  induction l with
  | nil => intro l' h; cases h
  | cons a t ih =>
    intro l' h
    by_cases ha : a = p
    · simp [firstIdx, ha]
    · have hpt : p ∈ t := by
        rcases List.mem_cons.mp h with hc | hc
        · exact absurd hc.symm ha
        · exact hc
      simp [firstIdx, ha, ih l' hpt]

theorem firstIdx_append_self_of_not_mem (p : String) :
    ∀ (l : List String), p ∉ l → firstIdx p (l ++ [p]) = l.length := by
  intro l
  induction l with
  | nil => intro h; simp [firstIdx]
  | cons a t ih =>
    intro h
    have ha : ¬ a = p := fun hc => h (List.mem_cons.mpr (Or.inl hc.symm))
    have ht : p ∉ t := fun hc => h (List.mem_cons_of_mem a hc)
    simp [firstIdx, ha, ih ht]

theorem firstIdx_lt_length_of_mem (p : String) :
    ∀ (l : List String), p ∈ l → firstIdx p l < l.length := by
  intro l
  induction l with
  | nil => intro h; cases h
  | cons a t ih =>
    intro h
    by_cases ha : a = p
    · simp [firstIdx, ha]
    · have hpt : p ∈ t := by
        rcases List.mem_cons.mp h with hc | hc
        · exact absurd hc.symm ha
        · exact hc
      simp only [firstIdx, if_neg ha, List.length_cons]
      exact Nat.succ_lt_succ (ih hpt)

theorem lookupCount_foldl (l : List String) (s : String) :
    lookupCount (l.foldl bumpCount []) s
      = if l.count s = 0 then none else some (l.count s) := by
  induction l using List.reverseRecOn with
  | nil => simp [lookupCount]
  | append_singleton l a ih =>
    rw [List.foldl_append]
    simp only [List.foldl_cons, List.foldl_nil]
    rw [lookupCount_bumpCount]
    by_cases hsa : s = a
    · subst hsa
      rw [if_pos rfl, ih, List.count_append]
      by_cases h0 : l.count s = 0
      · simp [h0]
      · simp [h0]
    · have hsa' : (s == a) = false := by
        simp [hsa]
      rw [if_neg hsa, ih, List.count_append]
      have has : ¬ a = s := fun hc => hsa hc.symm
      simp [List.count_singleton', hsa', has]

theorem keysOf_foldl (l : List String) :
    (∀ s, s ∈ keysOf (l.foldl bumpCount []) ↔ s ∈ l) ∧
    (keysOf (l.foldl bumpCount [])).Nodup ∧
    (keysOf (l.foldl bumpCount [])).Pairwise
      (fun s t => firstIdx s l < firstIdx t l) := by
  induction l using List.reverseRecOn with
  | nil => simp [keysOf]
  | append_singleton l a ih =>
    obtain ⟨ihmem, ihnd, ihpw⟩ := ih
    rw [List.foldl_append]
    simp only [List.foldl_cons, List.foldl_nil]
    rw [keysOf_bumpCount]
    have htrans : (keysOf (l.foldl bumpCount [])).Pairwise
        (fun s t => firstIdx s (l ++ [a]) < firstIdx t (l ++ [a])) := by
      refine List.Pairwise.imp_of_mem ?_ ihpw
      intro s t hs ht hlt
      rw [firstIdx_append_of_mem s l [a] ((ihmem s).mp hs),
          firstIdx_append_of_mem t l [a] ((ihmem t).mp ht)]
      exact hlt
    by_cases hmem : a ∈ keysOf (l.foldl bumpCount [])
    · rw [if_pos hmem]
      refine ⟨?_, ihnd, htrans⟩
      intro s
      rw [ihmem s, List.mem_append]
      constructor
      · exact Or.inl
      · rintro (h | h)
        · exact h
        · rw [List.mem_singleton] at h
          subst h
          exact (ihmem s).mp hmem
    · rw [if_neg hmem]
      have hanotl : a ∉ l := fun hc => hmem ((ihmem a).mpr hc)
      refine ⟨?_, ?_, ?_⟩
      · intro s
        rw [List.mem_append, List.mem_append, ihmem s]
      · rw [List.nodup_append]
        refine ⟨ihnd, List.nodup_singleton a, ?_⟩
        intro s hs hsa
        rw [List.mem_singleton] at hsa
        subst hsa
        exact hmem hs
      · rw [List.pairwise_append]
        refine ⟨htrans, List.pairwise_singleton _ a, ?_⟩
        intro s hs t ht
        rw [List.mem_singleton] at ht
        subst ht
        rw [firstIdx_append_of_mem s l [t] ((ihmem s).mp hs),
            firstIdx_append_self_of_not_mem t l hanotl]
        exact firstIdx_lt_length_of_mem s l ((ihmem s).mp hs)

theorem le_maxPairFirst :
    ∀ (rest : List (String × Nat)) (best : String × Nat),
      best.2 ≤ (maxPairFirst best rest).2 := by
  intro rest
  induction rest with
  | nil => intro best; exact Nat.le_refl _
  | cons p t ih =>
    intro best
    rw [show maxPairFirst best (p :: t)
          = maxPairFirst (if best.2 < p.2 then p else best) t from rfl]
    by_cases h : best.2 < p.2
    · rw [if_pos h]
      exact Nat.le_trans (Nat.le_of_lt h) (ih p)
    · rw [if_neg h]
      exact ih best

theorem maxPairFirst_decomp :
    ∀ (rest : List (String × Nat)) (best : String × Nat),
      ∃ pre post, best :: rest = pre ++ (maxPairFirst best rest) :: post ∧
        (∀ q ∈ pre, q.2 < (maxPairFirst best rest).2) ∧
        (∀ q ∈ post, q.2 ≤ (maxPairFirst best rest).2) := by
  intro rest
  induction rest with
  | nil =>
    intro best
    exact ⟨[], [], rfl, by simp, by simp⟩
  | cons p t ih =>
    intro best
    rw [show maxPairFirst best (p :: t)
          = maxPairFirst (if best.2 < p.2 then p else best) t from rfl]
    by_cases h : best.2 < p.2
    · rw [if_pos h]
      obtain ⟨pre', post', hdec, hpre, hpost⟩ := ih p
      refine ⟨best :: pre', post', ?_, ?_, hpost⟩
      · rw [List.cons_append, ← hdec]
      · intro q hq
        rcases List.mem_cons.mp hq with rfl | hq'
        · exact Nat.lt_of_lt_of_le h (le_maxPairFirst t p)
        · exact hpre q hq'
    · rw [if_neg h]
      obtain ⟨pre', post', hdec, hpre, hpost⟩ := ih best
      cases pre' with
      | nil =>
        simp only [List.nil_append] at hdec
        injection hdec with h1 h2
        refine ⟨[], p :: post', ?_, by simp, ?_⟩
        · simp only [List.nil_append]
          rw [← h1, ← h2]
        · intro q hq
          rcases List.mem_cons.mp hq with rfl | hq'
          · rw [← h1]
            exact Nat.not_lt.mp h
          · exact hpost q hq'
      | cons b pre'' =>
        rw [List.cons_append] at hdec
        injection hdec with h1 h2
        refine ⟨best :: p :: pre'', post', ?_, ?_, hpost⟩
        · rw [List.cons_append, List.cons_append, ← h2]
        · intro q hq
          have hb : b.2 < (maxPairFirst best t).2 :=
            hpre b (List.mem_cons_self b pre'')
          have h12 : best.2 = b.2 := congrArg Prod.snd h1
          have hbest : best.2 < (maxPairFirst best t).2 := by
            rw [h12]
            exact hb
          rcases List.mem_cons.mp hq with rfl | hq'
          · exact hbest
          · rcases List.mem_cons.mp hq' with rfl | hq''
            · exact Nat.lt_of_le_of_lt (Nat.not_lt.mp h) hbest
            · exact hpre q (List.mem_cons_of_mem b hq'')

theorem lookupCount_eq_some_mem :
    ∀ (m : List (String × Nat)) (s : String) (v : Nat),
      lookupCount m s = some v → (s, v) ∈ m := by
  intro m
  induction m with
  | nil => intro s v h; cases h
  | cons kv rest ih =>
    intro s v h
    obtain ⟨k, w⟩ := kv
    by_cases hk : k = s
    · subst hk
      have hw : lookupCount ((k, w) :: rest) k = some w := by
        simp [lookupCount]
      rw [hw, Option.some.injEq] at h
      subst h
      exact List.mem_cons_self _ _
    · rw [show lookupCount ((k, w) :: rest) s = lookupCount rest s by
            simp [lookupCount, hk]] at h
      exact List.mem_cons_of_mem _ (ih s v h)

theorem lookupCount_of_nodup_mem :
    ∀ (m : List (String × Nat)) (s : String) (v : Nat),
      (keysOf m).Nodup → (s, v) ∈ m → lookupCount m s = some v := by
  intro m
  induction m with
  | nil => intro s v _ h; cases h
  | cons kv rest ih =>
    intro s v hnd h
    obtain ⟨k, w⟩ := kv
    rw [show keysOf ((k, w) :: rest) = k :: keysOf rest from rfl,
        List.nodup_cons] at hnd
    rcases List.mem_cons.mp h with hc | hc
    · rw [Prod.mk.injEq] at hc
      obtain ⟨rfl, rfl⟩ := hc
      simp [lookupCount]
    · have hs : s ∈ keysOf rest := List.mem_map_of_mem Prod.fst hc
      by_cases hk : k = s
      · exact absurd (show k ∈ keysOf rest by rw [hk]; exact hs) hnd.1
      · rw [show lookupCount ((k, w) :: rest) s = lookupCount rest s by
              simp [lookupCount, hk]]
        exact ih s v hnd.2 hc

/-- C6: the `popularity` policy of `_get_proposer_for_this_step` counts one
tally per sequence with a present, Registry-valid assignment (ignoring
unassigned and invalid entries); the chosen proposer is a valid assignment
with the maximum tally, and among the equally-maximal strategy ids it is the
one whose first occurrence (insertion into the tally dict) is earliest; when
no sequence contributes a valid tally the fallback tag is returned. -/
theorem popularity_max_count_first_occurrence (valid : List String)
    (batch : List SeqItem) :
    (validAssignments valid batch = [] →
      get_proposer_for_this_step valid batch (some "popularity")
        = Except.ok "[ngram]") ∧
    (validAssignments valid batch ≠ [] →
      get_proposer_for_this_step valid batch (some "popularity")
          = Except.ok (popularityChoice (countLoop valid batch [])) ∧
      popularityChoice (countLoop valid batch []) ∈ validAssignments valid batch ∧
      (∀ s ∈ validAssignments valid batch,
        (validAssignments valid batch).count s
          ≤ (validAssignments valid batch).count
              (popularityChoice (countLoop valid batch []))) ∧
      (∀ s ∈ validAssignments valid batch,
        (validAssignments valid batch).count s
            = (validAssignments valid batch).count
                (popularityChoice (countLoop valid batch [])) →
        firstIdx (popularityChoice (countLoop valid batch []))
            (validAssignments valid batch)
          ≤ firstIdx s (validAssignments valid batch))) := by
  have hcl : countLoop valid batch [] = (validAssignments valid batch).foldl bumpCount [] :=
    countLoop_eq_foldl valid batch []
  constructor
  · intro h0
    rw [gp_popularity_eq, hcl, h0]
    rfl
  · intro hne
    obtain ⟨hmem, hnd, hpw⟩ := keysOf_foldl (validAssignments valid batch)
    obtain ⟨s0, hs0⟩ := List.exists_mem_of_ne_nil _ hne
    have hs0k : s0 ∈ keysOf ((validAssignments valid batch).foldl bumpCount []) :=
      (hmem s0).mpr hs0
    have hmne : (validAssignments valid batch).foldl bumpCount [] ≠ [] := by
      intro hc
      rw [hc] at hs0k
      cases hs0k
    obtain ⟨c, restm, hcons⟩ := List.exists_cons_of_ne_nil hmne
    obtain ⟨pre, post, hdec, hpre, hpost⟩ := maxPairFirst_decomp restm c
    have hchoice : popularityChoice (countLoop valid batch [])
        = (maxPairFirst c restm).1 := by
      rw [hcl, hcons]
      rfl
    have hmdec : (validAssignments valid batch).foldl bumpCount []
        = pre ++ (maxPairFirst c restm) :: post := by
      rw [hcons, hdec]
    have hrm : maxPairFirst c restm ∈ (validAssignments valid batch).foldl bumpCount [] := by
      rw [hmdec]
      exact List.mem_append_right _ (List.mem_cons_self _ _)
    have hr1k : (maxPairFirst c restm).1
        ∈ keysOf ((validAssignments valid batch).foldl bumpCount []) :=
      List.mem_map_of_mem Prod.fst hrm
    have hr1va : (maxPairFirst c restm).1 ∈ validAssignments valid batch :=
      (hmem _).mp hr1k
    have hlr : lookupCount ((validAssignments valid batch).foldl bumpCount [])
        (maxPairFirst c restm).1 = some (maxPairFirst c restm).2 :=
      lookupCount_of_nodup_mem _ _ _ hnd (by rwa [Prod.mk.eta])
    have hcountr : (validAssignments valid batch).count (maxPairFirst c restm).1 ≠ 0 := by
      have := List.count_pos_iff.mpr hr1va
      omega
    have hlrc : lookupCount ((validAssignments valid batch).foldl bumpCount [])
        (maxPairFirst c restm).1
        = some ((validAssignments valid batch).count (maxPairFirst c restm).1) := by
      rw [lookupCount_foldl, if_neg hcountr]
    have hvr : (maxPairFirst c restm).2
        = (validAssignments valid batch).count (maxPairFirst c restm).1 := by
      rw [hlr, Option.some.injEq] at hlrc
      exact hlrc
    have hmemPair : ∀ s ∈ validAssignments valid batch,
        (s, (validAssignments valid batch).count s)
          ∈ pre ++ (maxPairFirst c restm) :: post := by
      intro s hs
      have hcs : (validAssignments valid batch).count s ≠ 0 := by
        have := List.count_pos_iff.mpr hs
        omega
      have : lookupCount ((validAssignments valid batch).foldl bumpCount []) s
          = some ((validAssignments valid batch).count s) := by
        rw [lookupCount_foldl, if_neg hcs]
      rw [hmdec] at this
      exact lookupCount_eq_some_mem _ _ _ this
    refine ⟨gp_popularity_eq valid batch, by rw [hchoice]; exact hr1va, ?_, ?_⟩
    · intro s hs
      rw [hchoice]
      rcases List.mem_append.mp (hmemPair s hs) with hin | hin
      · have := hpre _ hin
        simp only at this
        omega
      · rcases List.mem_cons.mp hin with heq | hin'
        · have : (validAssignments valid batch).count s = (maxPairFirst c restm).2 :=
            congrArg Prod.snd heq
          omega
        · have := hpost _ hin'
          simp only at this
          omega
    · intro s hs heq
      rw [hchoice] at heq ⊢
      rcases List.mem_append.mp (hmemPair s hs) with hin | hin
      · have := hpre _ hin
        simp only at this
        omega
      · rcases List.mem_cons.mp hin with heqp | hin'
        · have hs1 : s = (maxPairFirst c restm).1 := congrArg Prod.fst heqp
          rw [hs1]
        · have hskey : s ∈ keysOf post :=
            List.mem_map_of_mem Prod.fst hin'
          have hkdec : keysOf ((validAssignments valid batch).foldl bumpCount [])
              = keysOf pre ++ (maxPairFirst c restm).1 :: keysOf post := by
            rw [hmdec]
            simp [keysOf]
          rw [hkdec] at hpw
          have hpw2 := (List.pairwise_append.mp hpw).2.1
          have hlt := (List.pairwise_cons.mp hpw2).1 s hskey
          exact Nat.le_of_lt hlt

/-- Closed instance of `popularity_max_count_first_occurrence` on the batch
with assignments `{A, A, B}`. -/
theorem popularity_max_count_first_occurrence_witness :
    validAssignments ["A", "B"]
        [SeqItem.mk (some "A") 0, SeqItem.mk (some "A") 1, SeqItem.mk (some "B") 2] ≠ [] ∧
    (get_proposer_for_this_step ["A", "B"]
        [SeqItem.mk (some "A") 0, SeqItem.mk (some "A") 1, SeqItem.mk (some "B") 2]
        (some "popularity")
      = Except.ok (popularityChoice (countLoop ["A", "B"]
          [SeqItem.mk (some "A") 0, SeqItem.mk (some "A") 1, SeqItem.mk (some "B") 2] [])) ∧
    popularityChoice (countLoop ["A", "B"]
        [SeqItem.mk (some "A") 0, SeqItem.mk (some "A") 1, SeqItem.mk (some "B") 2] [])
      ∈ validAssignments ["A", "B"]
        [SeqItem.mk (some "A") 0, SeqItem.mk (some "A") 1, SeqItem.mk (some "B") 2] ∧
    (∀ s ∈ validAssignments ["A", "B"]
        [SeqItem.mk (some "A") 0, SeqItem.mk (some "A") 1, SeqItem.mk (some "B") 2],
      (validAssignments ["A", "B"]
        [SeqItem.mk (some "A") 0, SeqItem.mk (some "A") 1, SeqItem.mk (some "B") 2]).count s
        ≤ (validAssignments ["A", "B"]
            [SeqItem.mk (some "A") 0, SeqItem.mk (some "A") 1, SeqItem.mk (some "B") 2]).count
            (popularityChoice (countLoop ["A", "B"]
              [SeqItem.mk (some "A") 0, SeqItem.mk (some "A") 1,
                SeqItem.mk (some "B") 2] []))) ∧
    (∀ s ∈ validAssignments ["A", "B"]
        [SeqItem.mk (some "A") 0, SeqItem.mk (some "A") 1, SeqItem.mk (some "B") 2],
      (validAssignments ["A", "B"]
        [SeqItem.mk (some "A") 0, SeqItem.mk (some "A") 1, SeqItem.mk (some "B") 2]).count s
          = (validAssignments ["A", "B"]
              [SeqItem.mk (some "A") 0, SeqItem.mk (some "A") 1, SeqItem.mk (some "B") 2]).count
              (popularityChoice (countLoop ["A", "B"]
                [SeqItem.mk (some "A") 0, SeqItem.mk (some "A") 1,
                  SeqItem.mk (some "B") 2] [])) →
      firstIdx (popularityChoice (countLoop ["A", "B"]
          [SeqItem.mk (some "A") 0, SeqItem.mk (some "A") 1, SeqItem.mk (some "B") 2] []))
          (validAssignments ["A", "B"]
            [SeqItem.mk (some "A") 0, SeqItem.mk (some "A") 1, SeqItem.mk (some "B") 2])
        ≤ firstIdx s (validAssignments ["A", "B"]
            [SeqItem.mk (some "A") 0, SeqItem.mk (some "A") 1, SeqItem.mk (some "B") 2]))) :=
  ⟨by decide,
   (popularity_max_count_first_occurrence ["A", "B"]
      [SeqItem.mk (some "A") 0, SeqItem.mk (some "A") 1, SeqItem.mk (some "B") 2]).2
     (by decide)⟩

theorem executeScan_cons_none (reg : List (String × Worker)) (d : Nat)
    (rest : List SeqItem) :
    executeScan reg (SeqItem.mk none d :: rest)
      = (SeqItem.mk none d :: (executeScan reg rest).1,
         (executeScan reg rest).2) := rfl

theorem executeScan_cons_some (reg : List (String × Worker)) (q : String)
    (d : Nat) (rest : List SeqItem) :
    executeScan reg (SeqItem.mk (some q) d :: rest)
      = match lookupWorker reg (if q ∈ regKeys reg then q else "[ngram]") with
        | none =>
          (SeqItem.mk (some (if q ∈ regKeys reg then q else "[ngram]")) d :: rest,
           ScanResult.keyError)
        | some w =>
          if isStepping w then
            (SeqItem.mk (some (if q ∈ regKeys reg then q else "[ngram]")) d :: rest,
             ScanResult.breakAt (if q ∈ regKeys reg then q else "[ngram]"))
          else
            (SeqItem.mk (some (if q ∈ regKeys reg then q else "[ngram]")) d
                :: (executeScan reg rest).1,
             (executeScan reg rest).2) := rfl

theorem executeScan_nonStepping (reg : List (String × Worker)) :
    ∀ (batch : List SeqItem), (∀ t ∈ batch, nonSteppingSeq reg t = true) →
      executeScan reg batch = (batch.map (coerceSeq reg), ScanResult.noBreak) := by
  intro batch
  induction batch with
  | nil => intro _; rfl
  | cons s rest ih =>
    intro h
    have hs := h s (List.mem_cons_self s rest)
    have hrest : ∀ t ∈ rest, nonSteppingSeq reg t = true :=
      fun t ht => h t (List.mem_cons_of_mem s ht)
    obtain ⟨sd, d⟩ := s
    cases sd with
    | none =>
      rw [executeScan_cons_none, ih hrest]
      rfl
    | some q =>
      rw [executeScan_cons_some]
      have hs' : (match lookupWorker reg (if q ∈ regKeys reg then q else "[ngram]") with
          | none => false
          | some u => ! isStepping u) = true := hs
      cases hlw : lookupWorker reg (if q ∈ regKeys reg then q else "[ngram]") with
      | none =>
        rw [hlw] at hs'
        simp at hs'
      | some u =>
        rw [hlw] at hs'
        simp only [Bool.not_eq_true'] at hs'
        simp [hs', ih hrest, coerceSeq]

theorem executeScan_break (reg : List (String × Worker)) (s : SeqItem)
    (rest : List SeqItem) (q : String) (w : Worker)
    (hsq : s.spec_decode_params = some q)
    (hw : lookupWorker reg (if q ∈ regKeys reg then q else "[ngram]") = some w)
    (hstep : isStepping w = true) :
    ∀ (pre : List SeqItem), (∀ t ∈ pre, nonSteppingSeq reg t = true) →
      executeScan reg (pre ++ s :: rest)
        = (pre.map (coerceSeq reg) ++ coerceSeq reg s :: rest,
           ScanResult.breakAt (if q ∈ regKeys reg then q else "[ngram]")) := by
  intro pre
  induction pre with
  | nil =>
    intro _
    obtain ⟨sd, d⟩ := s
    cases sd with
    | none => cases hsq
    | some q' =>
      rw [Option.some.injEq] at hsq
      subst hsq
      rw [List.nil_append, executeScan_cons_some, hw]
      simp [hstep, coerceSeq]
  | cons t pre' ih =>
    intro h
    have ht := h t (List.mem_cons_self t pre')
    have hpre' : ∀ u ∈ pre', nonSteppingSeq reg u = true :=
      fun u hu => h u (List.mem_cons_of_mem t hu)
    obtain ⟨td, dd⟩ := t
    cases td with
    | none =>
      rw [List.cons_append, executeScan_cons_none, ih hpre']
      rfl
    | some tq =>
      rw [List.cons_append, executeScan_cons_some]
      have ht' : (match lookupWorker reg (if tq ∈ regKeys reg then tq else "[ngram]") with
          | none => false
          | some u => ! isStepping u) = true := ht
      cases hlw : lookupWorker reg (if tq ∈ regKeys reg then tq else "[ngram]") with
      | none =>
        rw [hlw] at ht'
        simp at ht'
      | some u =>
        rw [hlw] at ht'
        simp only [Bool.not_eq_true'] at ht'
        simp [ht', ih hpre', coerceSeq]

/-- C8: `execute_model` returns `[]` at once for an absent request, returns
`[]` through the `for`-`else` for an empty batch or a batch in which no
sequence resolves to a model-stepping worker (delegating nothing), and
otherwise stops at the first sequence resolving to a model-stepping worker
and delegates the entire (coerced) batch to that worker. -/
theorem execute_model_delegation (reg : List (String × Worker))
    (batch pre rest : List SeqItem) (s : SeqItem) (q : String) (w : Worker) :
    execute_model reg none = (ExecResult.emptyList, none) ∧
    execute_model reg (some []) = (ExecResult.emptyList, some []) ∧
    ((∀ t ∈ batch, nonSteppingSeq reg t = true) →
      execute_model reg (some batch)
        = (ExecResult.emptyList, some (batch.map (coerceSeq reg)))) ∧
    ((∀ t ∈ pre, nonSteppingSeq reg t = true) →
      s.spec_decode_params = some q →
      lookupWorker reg (if q ∈ regKeys reg then q else "[ngram]") = some w →
      isStepping w = true →
      execute_model reg (some (pre ++ s :: rest))
        = (ExecResult.delegated (if q ∈ regKeys reg then q else "[ngram]")
            (pre.map (coerceSeq reg) ++ coerceSeq reg s :: rest),
           some (pre.map (coerceSeq reg) ++ coerceSeq reg s :: rest))) := by
  refine ⟨rfl, rfl, ?_, ?_⟩
  · intro h
    show (match executeScan reg batch with
      | (batch', ScanResult.noBreak) => (ExecResult.emptyList, some batch')
      | (batch', ScanResult.keyError) => (ExecResult.keyError, some batch')
      | (batch', ScanResult.breakAt p) =>
        (ExecResult.delegated p batch', some batch')) = _
    rw [executeScan_nonStepping reg batch h]
  · intro h hsq hw hstep
    show (match executeScan reg (pre ++ s :: rest) with
      | (batch', ScanResult.noBreak) => (ExecResult.emptyList, some batch')
      | (batch', ScanResult.keyError) => (ExecResult.keyError, some batch')
      | (batch', ScanResult.breakAt p) =>
        (ExecResult.delegated p batch', some batch')) = _
    rw [executeScan_break reg s rest q w hsq hw hstep pre h]

/-- Closed instance of `execute_model_delegation`: the batch
`[[ngram]-assigned, A-assigned, unassigned]` against a registry in which `A`
is a `MultiStepWorker` delegates the whole batch to `A`. -/
theorem execute_model_delegation_witness :
    (∀ t ∈ [SeqItem.mk (some "[ngram]") 0],
      nonSteppingSeq [("[ngram]", Worker.other), ("A", Worker.multiStep)] t = true) ∧
    execute_model [("[ngram]", Worker.other), ("A", Worker.multiStep)]
        (some ([SeqItem.mk (some "[ngram]") 0]
          ++ SeqItem.mk (some "A") 1 :: [SeqItem.mk none 2]))
      = (ExecResult.delegated
          (if "A" ∈ regKeys [("[ngram]", Worker.other), ("A", Worker.multiStep)]
            then "A" else "[ngram]")
          ([SeqItem.mk (some "[ngram]") 0].map
              (coerceSeq [("[ngram]", Worker.other), ("A", Worker.multiStep)])
            ++ coerceSeq [("[ngram]", Worker.other), ("A", Worker.multiStep)]
                (SeqItem.mk (some "A") 1) :: [SeqItem.mk none 2]),
         some ([SeqItem.mk (some "[ngram]") 0].map
              (coerceSeq [("[ngram]", Worker.other), ("A", Worker.multiStep)])
            ++ coerceSeq [("[ngram]", Worker.other), ("A", Worker.multiStep)]
                (SeqItem.mk (some "A") 1) :: [SeqItem.mk none 2])) :=
  ⟨by decide,
   (execute_model_delegation [("[ngram]", Worker.other), ("A", Worker.multiStep)]
      [] [SeqItem.mk (some "[ngram]") 0] [SeqItem.mk none 2]
      (SeqItem.mk (some "A") 1) "A" Worker.multiStep).2.2.2
     (by decide) rfl rfl rfl⟩

/-- C1 failing input: a batch whose single sequence has no
`spec_decode_params` is routed to no group by the partition step, its merge
slot stays unwritten (`None`), and the final stack raises instead of
producing a proposal for output position 0. -/
theorem combined_unassigned_not_routed :
    partitionLoop ["[ngram]"] 0 [SeqItem.mk none 0] [] = [] ∧
    mergeLoop (fun p _ => p) (partitionLoop ["[ngram]"] 0 [SeqItem.mk none 0] [])
        (List.replicate 1 (none : Option String)) = [none] ∧
    (get_combined_spec_proposals (fun p _ => p) ["[ngram]"]
        [SeqItem.mk none 0]).1 = none :=
  ⟨rfl, rfl, rfl⟩

/-- C2 counterexample: after the batch proposal query and after the
partitioned proposal operation, a sequence whose assignment names a proposer
absent from the registry still carries that unknown id: neither call rewrites
it to the fallback tag. -/
theorem scan_calls_do_not_rewrite_unknown_assignment :
    (get_spec_proposals (fun p _ => p) ["[ngram]"]
        [SeqItem.mk (some "bogus") 0]).2 = [SeqItem.mk (some "bogus") 0] ∧
    (get_combined_spec_proposals (fun p _ => p) ["[ngram]"]
        [SeqItem.mk (some "bogus") 0]).2 = [SeqItem.mk (some "bogus") 0] ∧
    (some "bogus" : Option String) ≠ some "[ngram]" ∧
    "bogus" ∉ ["[ngram]"] :=
  ⟨rfl, rfl, by decide, by decide⟩

/-- C2 amended: the proposal query and the partitioned proposal operation
leave every assignment unchanged; only `execute_model` rewrites unknown
assignments, and it rewrites exactly the sequences its scan visits — in
particular, when every sequence carries an unknown assignment and the
fallback worker exists but is not model-stepping, every assignment in the
returned request has been rewritten to the fallback tag. -/
theorem only_execute_model_rewrites_assignments {α : Type}
    (fprop : String → List SeqItem → α) (f : String → SeqItem → α)
    (valid : List String) (reg : List (String × Worker))
    (batch : List SeqItem) (w : Worker)
    (hall : ∀ t ∈ batch, unknownAssigned reg t = true)
    (hng : lookupWorker reg "[ngram]" = some w)
    (hnw : isStepping w = false) :
    (get_spec_proposals fprop valid batch).2 = batch ∧
    (get_combined_spec_proposals f valid batch).2 = batch ∧
    execute_model reg (some batch)
      = (ExecResult.emptyList,
         some (batch.map (fun t => SeqItem.mk (some "[ngram]") t.data))) := by
  have key : ∀ t ∈ batch, nonSteppingSeq reg t = true ∧
      coerceSeq reg t = SeqItem.mk (some "[ngram]") t.data := by
    intro t ht
    have hu := hall t ht
    obtain ⟨td, dd⟩ := t
    cases td with
    | none => cases hu
    | some q =>
      have hq : ¬ q ∈ regKeys reg := by
        have : (! decide (q ∈ regKeys reg)) = true := hu
        simpa using this
      constructor
      · have : nonSteppingSeq reg (SeqItem.mk (some q) dd)
            = (match lookupWorker reg (if q ∈ regKeys reg then q else "[ngram]") with
               | none => false
               | some u => ! isStepping u) := rfl
        rw [this, if_neg hq, hng]
        simp [hnw]
      · show SeqItem.mk (some (if q ∈ regKeys reg then q else "[ngram]")) dd = _
        rw [if_neg hq]
  refine ⟨?_, rfl, ?_⟩
  · rw [get_spec_proposals]
    cases get_proposer_for_this_step valid batch (some "proposal_latency") <;> rfl
  · show (match executeScan reg batch with
      | (batch', ScanResult.noBreak) => (ExecResult.emptyList, some batch')
      | (batch', ScanResult.keyError) => (ExecResult.keyError, some batch')
      | (batch', ScanResult.breakAt p) =>
        (ExecResult.delegated p batch', some batch')) = _
    rw [executeScan_nonStepping reg batch (fun t ht => (key t ht).1)]
    have hmap : batch.map (coerceSeq reg)
        = batch.map (fun t => SeqItem.mk (some "[ngram]") t.data) :=
      List.map_congr_left (fun t ht => (key t ht).2)
    rw [hmap]

/-- Closed instance of `only_execute_model_rewrites_assignments` on a batch
of two unknown-assigned sequences. -/
theorem only_execute_model_rewrites_assignments_witness :
    (∀ t ∈ [SeqItem.mk (some "x") 0, SeqItem.mk (some "y") 1],
      unknownAssigned [("[ngram]", Worker.other)] t = true) ∧
    ((get_spec_proposals (fun p _ => p) ["[ngram]"]
        [SeqItem.mk (some "x") 0, SeqItem.mk (some "y") 1]).2
      = [SeqItem.mk (some "x") 0, SeqItem.mk (some "y") 1] ∧
    (get_combined_spec_proposals (fun p _ => p) ["[ngram]"]
        [SeqItem.mk (some "x") 0, SeqItem.mk (some "y") 1]).2
      = [SeqItem.mk (some "x") 0, SeqItem.mk (some "y") 1] ∧
    execute_model [("[ngram]", Worker.other)]
        (some [SeqItem.mk (some "x") 0, SeqItem.mk (some "y") 1])
      = (ExecResult.emptyList,
         some ([SeqItem.mk (some "x") 0, SeqItem.mk (some "y") 1].map
           (fun t => SeqItem.mk (some "[ngram]") t.data)))) :=
  ⟨by decide,
   only_execute_model_rewrites_assignments (fun p _ => p) (fun p _ => p)
     ["[ngram]"] [("[ngram]", Worker.other)]
     [SeqItem.mk (some "x") 0, SeqItem.mk (some "y") 1] Worker.other
     (by decide) rfl rfl⟩

theorem partitionLoop_cons_none (valid : List String) (idx : Nat) (d : Nat)
    (rest : List SeqItem) (g : List (String × List (Nat × SeqItem))) :
    partitionLoop valid idx (SeqItem.mk none d :: rest) g
      = partitionLoop valid (idx + 1) rest g := rfl

theorem partitionLoop_cons_some (valid : List String) (idx : Nat) (q : String)
    (d : Nat) (rest : List SeqItem) (g : List (String × List (Nat × SeqItem))) :
    partitionLoop valid idx (SeqItem.mk (some q) d :: rest) g
      = partitionLoop valid (idx + 1) rest
          (addToGroup g (if q ∈ valid then q else "[ngram]") idx
            (SeqItem.mk (some q) d)) := rfl

theorem expectedMembers_cons_none (valid : List String) (p : String)
    (idx : Nat) (d : Nat) (rest : List SeqItem) :
    expectedMembers valid p idx (SeqItem.mk none d :: rest)
      = expectedMembers valid p (idx + 1) rest := rfl

theorem expectedMembers_cons_some (valid : List String) (p : String)
    (idx : Nat) (q : String) (d : Nat) (rest : List SeqItem) :
    expectedMembers valid p idx (SeqItem.mk (some q) d :: rest)
      = if (if q ∈ valid then q else "[ngram]") = p then
          (idx, SeqItem.mk (some q) d) :: expectedMembers valid p (idx + 1) rest
        else
          expectedMembers valid p (idx + 1) rest := rfl

theorem groupLookup_addToGroup (g : List (String × List (Nat × SeqItem)))
    (p r : String) (idx : Nat) (s : SeqItem) :
    groupLookup (addToGroup g p idx s) r =
      if r = p then some ((groupLookup g p).getD [] ++ [(idx, s)])
      else groupLookup g r := by
  induction g with
  | nil =>
    by_cases h : r = p
    · subst h; simp [addToGroup, groupLookup]
    · have h' : ¬ p = r := fun hc => h hc.symm
      simp [addToGroup, groupLookup, h, h']
  | cons kv rest ih =>
    obtain ⟨k, ms⟩ := kv
    by_cases hk : k = p
    · subst hk
      by_cases hr : r = k
      · subst hr; simp [addToGroup, groupLookup]
      · have hr' : ¬ k = r := fun hc => hr hc.symm
        simp [addToGroup, groupLookup, hr, hr']
    · by_cases hr : r = p
      · subst hr; simp [addToGroup, groupLookup, hk, ih]
      · by_cases hkr : k = r
        · simp [addToGroup, groupLookup, hk, hr, hkr]
        · simp [addToGroup, groupLookup, hk, hr, hkr, ih]

theorem groupKeys_addToGroup (g : List (String × List (Nat × SeqItem)))
    (p : String) (idx : Nat) (s : SeqItem) :
    groupKeys (addToGroup g p idx s) =
      if p ∈ groupKeys g then groupKeys g else groupKeys g ++ [p] := by
  induction g with
  | nil => simp [addToGroup, groupKeys]
  | cons kv rest ih =>
    obtain ⟨k, ms⟩ := kv
    have hcons : groupKeys ((k, ms) :: rest) = k :: groupKeys rest := rfl
    by_cases hk : k = p
    · subst hk; simp [addToGroup, groupKeys]
    · have hb : addToGroup ((k, ms) :: rest) p idx s
          = (k, ms) :: addToGroup rest p idx s := by
        simp [addToGroup, hk]
      by_cases hm : p ∈ groupKeys rest
      · rw [hb, show groupKeys ((k, ms) :: addToGroup rest p idx s)
              = k :: groupKeys (addToGroup rest p idx s) from rfl,
            ih, if_pos hm, hcons, if_pos (List.mem_cons_of_mem k hm)]
      · have hp : p ∉ groupKeys ((k, ms) :: rest) := by
          rw [hcons]
          intro hc
          rcases List.mem_cons.mp hc with hc | hc
          · exact hk hc.symm
          · exact hm hc
        rw [hb, show groupKeys ((k, ms) :: addToGroup rest p idx s)
              = k :: groupKeys (addToGroup rest p idx s) from rfl,
            ih, if_neg hm, hcons]
        rw [if_neg (show p ∉ k :: groupKeys rest from hcons ▸ hp)]
        exact (List.cons_append k (groupKeys rest) [p]).symm

theorem groupLookup_mem :
    ∀ (g : List (String × List (Nat × SeqItem))) (p : String)
      (ms : List (Nat × SeqItem)),
      groupLookup g p = some ms → (p, ms) ∈ g := by
  intro g
  induction g with
  | nil => intro p ms h; cases h
  | cons kv rest ih =>
    intro p ms h
    obtain ⟨k, ws⟩ := kv
    by_cases hk : k = p
    · subst hk
      have hw : groupLookup ((k, ws) :: rest) k = some ws := by
        simp [groupLookup]
      rw [hw, Option.some.injEq] at h
      subst h
      exact List.mem_cons_self _ _
    · rw [show groupLookup ((k, ws) :: rest) p = groupLookup rest p by
            simp [groupLookup, hk]] at h
      exact List.mem_cons_of_mem _ (ih p ms h)

theorem groupLookup_of_nodup_mem :
    ∀ (g : List (String × List (Nat × SeqItem))) (p : String)
      (ms : List (Nat × SeqItem)),
      (groupKeys g).Nodup → (p, ms) ∈ g → groupLookup g p = some ms := by
  intro g
  induction g with
  | nil => intro p ms _ h; cases h
  | cons kv rest ih =>
    intro p ms hnd h
    obtain ⟨k, ws⟩ := kv
    rw [show groupKeys ((k, ws) :: rest) = k :: groupKeys rest from rfl,
        List.nodup_cons] at hnd
    rcases List.mem_cons.mp h with hc | hc
    · rw [Prod.mk.injEq] at hc
      obtain ⟨rfl, rfl⟩ := hc
      simp [groupLookup]
    · have hs : p ∈ groupKeys rest := List.mem_map_of_mem Prod.fst hc
      by_cases hk : k = p
      · exact absurd (show k ∈ groupKeys rest by rw [hk]; exact hs) hnd.1
      · rw [show groupLookup ((k, ws) :: rest) p = groupLookup rest p by
              simp [groupLookup, hk]]
        exact ih p ms hnd.2 hc

theorem partitionLoop_lookup (valid : List String) :
    ∀ (l : List SeqItem) (idx : Nat)
      (g : List (String × List (Nat × SeqItem))) (r : String),
      (groupLookup (partitionLoop valid idx l g) r).getD []
        = (groupLookup g r).getD [] ++ expectedMembers valid r idx l := by
  intro l
  induction l with
  | nil => intro idx g r; simp [partitionLoop, expectedMembers]
  | cons s rest ih =>
    intro idx g r
    obtain ⟨sd, d⟩ := s
    cases sd with
    | none =>
      rw [partitionLoop_cons_none, expectedMembers_cons_none]
      exact ih (idx + 1) g r
    | some q =>
      rw [partitionLoop_cons_some, expectedMembers_cons_some,
          ih (idx + 1) _ r, groupLookup_addToGroup]
      by_cases hr : r = (if q ∈ valid then q else "[ngram]")
      · rw [if_pos hr, if_pos hr.symm, hr]
        simp
      · rw [if_neg hr, if_neg (fun hc => hr hc.symm)]

theorem partitionLoop_keys_nodup (valid : List String) :
    ∀ (l : List SeqItem) (idx : Nat)
      (g : List (String × List (Nat × SeqItem))),
      (groupKeys g).Nodup → (groupKeys (partitionLoop valid idx l g)).Nodup := by
  intro l
  induction l with
  | nil => intro idx g h; exact h
  | cons s rest ih =>
    intro idx g h
    obtain ⟨sd, d⟩ := s
    cases sd with
    | none => exact ih (idx + 1) g h
    | some q =>
      rw [partitionLoop_cons_some]
      refine ih (idx + 1) _ ?_
      rw [groupKeys_addToGroup]
      by_cases hm : (if q ∈ valid then q else "[ngram]") ∈ groupKeys g
      · rw [if_pos hm]
        exact h
      · rw [if_neg hm, List.nodup_append]
        refine ⟨h, List.nodup_singleton _, ?_⟩
        intro x hx hxp
        rw [List.mem_singleton] at hxp
        subst hxp
        exact hm hx

theorem expectedMembers_complete (valid : List String) :
    ∀ (l : List SeqItem) (idx i : Nat) (s : SeqItem) (q : String),
      l[i]? = some s → s.spec_decode_params = some q →
      (idx + i, s)
        ∈ expectedMembers valid (if q ∈ valid then q else "[ngram]") idx l := by
  intro l
  induction l with
  | nil => intro idx i s q h _; simp at h
  | cons t rest ih =>
    intro idx i s q h hq
    cases i with
    | zero =>
      rw [List.getElem?_cons_zero, Option.some.injEq] at h
      subst h
      obtain ⟨sd, d⟩ := t
      rw [show (SeqItem.mk sd d).spec_decode_params = sd from rfl] at hq
      subst hq
      rw [expectedMembers_cons_some, if_pos rfl]
      exact List.mem_cons.mpr (Or.inl (by rw [Nat.add_zero]))
    | succ i' =>
      rw [List.getElem?_cons_succ] at h
      have hmem := ih (idx + 1) i' s q h hq
      have harith : idx + (i' + 1) = (idx + 1) + i' := by omega
      rw [harith]
      obtain ⟨sd, d⟩ := t
      cases sd with
      | none =>
        rw [expectedMembers_cons_none]
        exact hmem
      | some q0 =>
        rw [expectedMembers_cons_some]
        by_cases hc : (if q0 ∈ valid then q0 else "[ngram]")
            = (if q ∈ valid then q else "[ngram]")
        · rw [if_pos hc]
          exact List.mem_cons_of_mem _ hmem
        · rw [if_neg hc]
          exact hmem

theorem expectedMembers_sound (valid : List String) (p : String) :
    ∀ (l : List SeqItem) (idx j : Nat) (s : SeqItem),
      (j, s) ∈ expectedMembers valid p idx l →
      idx ≤ j ∧ l[j - idx]? = some s ∧
        ∃ q, s.spec_decode_params = some q ∧
          (if q ∈ valid then q else "[ngram]") = p := by
  intro l
  induction l with
  | nil => intro idx j s h; cases h
  | cons t rest ih =>
    intro idx j s h
    obtain ⟨sd, d⟩ := t
    cases sd with
    | none =>
      rw [expectedMembers_cons_none] at h
      obtain ⟨h1, h2, h3⟩ := ih (idx + 1) j s h
      refine ⟨by omega, ?_, h3⟩
      rw [show j - idx = (j - (idx + 1)) + 1 by omega, List.getElem?_cons_succ]
      exact h2
    | some q0 =>
      rw [expectedMembers_cons_some] at h
      by_cases hc : (if q0 ∈ valid then q0 else "[ngram]") = p
      · rw [if_pos hc] at h
        rcases List.mem_cons.mp h with heq | h'
        · rw [Prod.mk.injEq] at heq
          obtain ⟨rfl, rfl⟩ := heq
          refine ⟨Nat.le_refl _, ?_, ⟨q0, rfl, hc⟩⟩
          rw [Nat.sub_self, List.getElem?_cons_zero]
        · obtain ⟨h1, h2, h3⟩ := ih (idx + 1) j s h'
          refine ⟨by omega, ?_, h3⟩
          rw [show j - idx = (j - (idx + 1)) + 1 by omega, List.getElem?_cons_succ]
          exact h2
      · rw [if_neg hc] at h
        obtain ⟨h1, h2, h3⟩ := ih (idx + 1) j s h
        refine ⟨by omega, ?_, h3⟩
        rw [show j - idx = (j - (idx + 1)) + 1 by omega, List.getElem?_cons_succ]
        exact h2

theorem expectedMembers_indices (valid : List String) (p : String) :
    ∀ (l : List SeqItem) (idx : Nat),
      (∀ x ∈ expectedMembers valid p idx l, idx ≤ x.1) ∧
      (expectedMembers valid p idx l).Pairwise (fun a b => a.1 < b.1) := by
  intro l
  induction l with
  | nil =>
    intro idx
    exact ⟨fun x h => absurd h (List.not_mem_nil x), List.Pairwise.nil⟩
  | cons t rest ih =>
    intro idx
    obtain ⟨sd, d⟩ := t
    obtain ⟨ihb, ihp⟩ := ih (idx + 1)
    cases sd with
    | none =>
      rw [expectedMembers_cons_none]
      exact ⟨fun x h => by have := ihb x h; omega, ihp⟩
    | some q0 =>
      rw [expectedMembers_cons_some]
      by_cases hc : (if q0 ∈ valid then q0 else "[ngram]") = p
      · rw [if_pos hc]
        constructor
        · intro x hx
          rcases List.mem_cons.mp hx with rfl | hx'
          · exact Nat.le_refl idx
          · have := ihb x hx'
            omega
        · rw [List.pairwise_cons]
          refine ⟨?_, ihp⟩
          intro x hx
          have := ihb x hx
          show idx < x.1
          omega
      · rw [if_neg hc]
        exact ⟨fun x h => by have := ihb x h; omega, ihp⟩

theorem scatterGroup_length {α : Type} (f : String → SeqItem → α) (p : String) :
    ∀ (members : List (Nat × SeqItem)) (m : List (Option α)),
      (scatterGroup f p members m).length = m.length := by
  intro members
  induction members with
  | nil => intro m; rfl
  | cons x rest ih =>
    intro m
    rw [show scatterGroup f p (x :: rest) m
          = scatterGroup f p rest (m.set x.1 (some (f p x.2))) from rfl,
        ih, List.length_set]

theorem scatterGroup_get_notin {α : Type} (f : String → SeqItem → α)
    (p : String) (j : Nat) :
    ∀ (members : List (Nat × SeqItem)) (m : List (Option α)),
      (∀ x ∈ members, x.1 ≠ j) → (scatterGroup f p members m)[j]? = m[j]? := by
  intro members
  induction members with
  | nil => intro m _; rfl
  | cons x rest ih =>
    intro m h
    rw [show scatterGroup f p (x :: rest) m
          = scatterGroup f p rest (m.set x.1 (some (f p x.2))) from rfl,
        ih _ (fun y hy => h y (List.mem_cons_of_mem x hy))]
    exact List.getElem?_set_ne (h x (List.mem_cons_self x rest))

theorem scatterGroup_get_write {α : Type} (f : String → SeqItem → α)
    (p : String) (j : Nat) (s : SeqItem)
    (mpre mpost : List (Nat × SeqItem)) (m : List (Option α))
    (hpost : ∀ x ∈ mpost, x.1 ≠ j) (hj : j < m.length) :
    (scatterGroup f p (mpre ++ (j, s) :: mpost) m)[j]? = some (some (f p s)) := by
  have hsplit : scatterGroup f p (mpre ++ (j, s) :: mpost) m
      = scatterGroup f p mpost
          ((scatterGroup f p mpre m).set j (some (f p s))) := by
    unfold scatterGroup
    rw [List.foldl_append]
    rfl
  rw [hsplit, scatterGroup_get_notin f p j mpost _ hpost]
  exact List.getElem?_set_eq_of_lt (some (f p s))
    (by rw [scatterGroup_length]; exact hj)

theorem mergeLoop_length {α : Type} (f : String → SeqItem → α) :
    ∀ (G : List (String × List (Nat × SeqItem))) (m : List (Option α)),
      (mergeLoop f G m).length = m.length := by
  intro G
  induction G with
  | nil => intro m; rfl
  | cons e rest ih =>
    intro m
    rw [show mergeLoop f (e :: rest) m
          = mergeLoop f rest (scatterGroup f e.1 e.2 m) from rfl,
        ih, scatterGroup_length]

theorem mergeLoop_get_notin {α : Type} (f : String → SeqItem → α) (j : Nat) :
    ∀ (G : List (String × List (Nat × SeqItem))) (m : List (Option α)),
      (∀ e ∈ G, ∀ x ∈ e.2, x.1 ≠ j) → (mergeLoop f G m)[j]? = m[j]? := by
  intro G
  induction G with
  | nil => intro m _; rfl
  | cons e rest ih =>
    intro m h
    rw [show mergeLoop f (e :: rest) m
          = mergeLoop f rest (scatterGroup f e.1 e.2 m) from rfl,
        ih _ (fun y hy => h y (List.mem_cons_of_mem e hy))]
    exact scatterGroup_get_notin f e.1 j e.2 m (h e (List.mem_cons_self e rest))

theorem mergeLoop_get_write {α : Type} (f : String → SeqItem → α) (j : Nat)
    (s : SeqItem) (p : String)
    (Gpre Gpost : List (String × List (Nat × SeqItem)))
    (ms mpre mpost : List (Nat × SeqItem)) (m : List (Option α))
    (hGpost : ∀ e ∈ Gpost, ∀ x ∈ e.2, x.1 ≠ j)
    (hms : ms = mpre ++ (j, s) :: mpost)
    (hpost : ∀ x ∈ mpost, x.1 ≠ j)
    (hj : j < m.length) :
    (mergeLoop f (Gpre ++ (p, ms) :: Gpost) m)[j]? = some (some (f p s)) := by
  subst hms
  have hsplit : mergeLoop f (Gpre ++ (p, mpre ++ (j, s) :: mpost) :: Gpost) m
      = mergeLoop f Gpost
          (scatterGroup f p (mpre ++ (j, s) :: mpost) (mergeLoop f Gpre m)) := by
    unfold mergeLoop
    rw [List.foldl_append]
    rfl
  rw [hsplit, mergeLoop_get_notin f j Gpost _ hGpost]
  exact scatterGroup_get_write f p j s mpre mpost _ hpost
    (by rw [mergeLoop_length]; exact hj)

theorem stackList_all_some {α : Type} :
    ∀ (merged : List (Option α)), (∀ x ∈ merged, x ≠ none) →
      ∃ out, stackList merged = some out ∧ out.length = merged.length ∧
        ∀ (j : Nat) (v : α), merged[j]? = some (some v) → out[j]? = some v := by
  intro merged
  induction merged with
  | nil =>
    intro _
    refine ⟨[], rfl, rfl, ?_⟩
    intro j v h
    simp at h
  | cons x rest ih =>
    intro h
    have hx := h x (List.mem_cons_self x rest)
    cases x with
    | none => exact absurd rfl hx
    | some a =>
      obtain ⟨out, ho, hlen, hget⟩ := ih (fun y hy => h y (List.mem_cons_of_mem _ hy))
      refine ⟨a :: out, ?_, by simp [hlen], ?_⟩
      · rw [show stackList (some a :: rest)
              = (stackList rest).map (fun l => a :: l) from rfl, ho]
        rfl
      · intro j v hj
        cases j with
        | zero =>
          rw [List.getElem?_cons_zero, Option.some.injEq, Option.some.injEq] at hj
          subst hj
          exact List.getElem?_cons_zero
        | succ j' =>
          rw [List.getElem?_cons_succ] at hj
          rw [List.getElem?_cons_succ]
          exact hget j' v hj

/-- C3: when every sequence in the batch carries an assignment, the
partition/merge pipeline of `_get_combined_spec_proposals` is
order-preserving — the merged slot at index `j` holds exactly the entry the
backend serving sequence `j` (the worker of its resolved proposer) produced
for that sequence, and (for a nonempty batch) the returned combined proposal
set has the batch's length with entry `j` equal to that same entry. -/
theorem combined_order_preserving {α : Type} (f : String → SeqItem → α)
    (valid : List String) (batch : List SeqItem)
    (hall : ∀ t ∈ batch, t.spec_decode_params ≠ none) :
    (∀ (j : Nat) (sj : SeqItem) (qj : String),
        batch[j]? = some sj → sj.spec_decode_params = some qj →
        (mergeLoop f (partitionLoop valid 0 batch [])
            (List.replicate batch.length none))[j]?
          = some (some (f (if qj ∈ valid then qj else "[ngram]") sj))) ∧
    (batch ≠ [] →
      ∃ out, (get_combined_spec_proposals f valid batch).1 = some out ∧
        out.length = batch.length ∧
        ∀ (j : Nat) (sj : SeqItem) (qj : String),
          batch[j]? = some sj → sj.spec_decode_params = some qj →
          out[j]? = some (f (if qj ∈ valid then qj else "[ngram]") sj)) := by
  have hGnd : (groupKeys (partitionLoop valid 0 batch [])).Nodup :=
    partitionLoop_keys_nodup valid batch 0 [] List.Pairwise.nil
  have hLkAll : ∀ r, (groupLookup (partitionLoop valid 0 batch []) r).getD []
      = expectedMembers valid r 0 batch := by
    intro r
    rw [partitionLoop_lookup valid batch 0 [] r]
    rfl
  have hEntry : ∀ e ∈ partitionLoop valid 0 batch [],
      e.2 = expectedMembers valid e.1 0 batch := by
    intro e he
    have hle : groupLookup (partitionLoop valid 0 batch []) e.1 = some e.2 :=
      groupLookup_of_nodup_mem _ _ _ hGnd (by rwa [Prod.mk.eta])
    have := hLkAll e.1
    rw [hle] at this
    simpa using this
  have main : ∀ (j : Nat) (sj : SeqItem) (qj : String),
      batch[j]? = some sj → sj.spec_decode_params = some qj →
      (mergeLoop f (partitionLoop valid 0 batch [])
          (List.replicate batch.length none))[j]?
        = some (some (f (if qj ∈ valid then qj else "[ngram]") sj)) := by
    intro j sj qj hbj hsq
    have hmem : (j, sj)
        ∈ expectedMembers valid (if qj ∈ valid then qj else "[ngram]") 0 batch := by
      have := expectedMembers_complete valid batch 0 j sj qj hbj hsq
      simpa using this
    have hnn : groupLookup (partitionLoop valid 0 batch [])
        (if qj ∈ valid then qj else "[ngram]") ≠ none := by
      intro hc
      have := hLkAll (if qj ∈ valid then qj else "[ngram]")
      rw [hc] at this
      rw [← this] at hmem
      cases hmem
    obtain ⟨ms, hms⟩ := Option.ne_none_iff_exists'.mp hnn
    have hmsE : ms = expectedMembers valid (if qj ∈ valid then qj else "[ngram]") 0 batch := by
      have := hLkAll (if qj ∈ valid then qj else "[ngram]")
      rw [hms] at this
      simpa using this
    have hGmem : ((if qj ∈ valid then qj else "[ngram]"), ms)
        ∈ partitionLoop valid 0 batch [] := groupLookup_mem _ _ _ hms
    obtain ⟨Gpre, Gpost, hGdec⟩ := List.append_of_mem hGmem
    have hkeys : groupKeys (partitionLoop valid 0 batch [])
        = groupKeys Gpre ++ (if qj ∈ valid then qj else "[ngram]") :: groupKeys Gpost := by
      rw [hGdec]
      simp [groupKeys]
    have hGnd' := hGnd
    rw [hkeys] at hGnd'
    have hother : ∀ e ∈ partitionLoop valid 0 batch [],
        e.1 ≠ (if qj ∈ valid then qj else "[ngram]") → ∀ x ∈ e.2, x.1 ≠ j := by
      intro e heG hne x hx hxj
      have he2 := hEntry e heG
      rw [he2] at hx
      obtain ⟨hx1, hx2, q', hq', hres⟩ :=
        expectedMembers_sound valid e.1 batch 0 x.1 x.2 (by rwa [Prod.mk.eta])
      rw [hxj, Nat.sub_zero, hbj, Option.some.injEq] at hx2
      rw [← hx2, hsq, Option.some.injEq] at hq'
      rw [← hq'] at hres
      exact hne (hres ▸ rfl)
    have hGpost : ∀ e ∈ Gpost, ∀ x ∈ e.2, x.1 ≠ j := by
      intro e he
      refine hother e (by rw [hGdec]; exact List.mem_append_right _ (List.mem_cons_of_mem _ he)) ?_
      intro hc
      have hkey : e.1 ∈ groupKeys Gpost := List.mem_map_of_mem Prod.fst he
      have hnd2 := (List.nodup_append.mp hGnd').2.1
      rw [List.nodup_cons] at hnd2
      exact hnd2.1 (hc ▸ hkey)
    obtain ⟨mpre, mpost, hmdec⟩ :=
      List.append_of_mem (show (j, sj) ∈ ms by rw [hmsE]; exact hmem)
    have hpost : ∀ x ∈ mpost, x.1 ≠ j := by
      have hpw : ms.Pairwise (fun a b => a.1 < b.1) := by
        rw [hmsE]
        exact (expectedMembers_indices valid _ batch 0).2
      rw [hmdec] at hpw
      have h2 := (List.pairwise_append.mp hpw).2.1
      have h3 := (List.pairwise_cons.mp h2).1
      intro x hx
      have := h3 x hx
      omega
    have hjlen : j < batch.length := (List.getElem?_eq_some_iff.mp hbj).1
    rw [hGdec]
    exact mergeLoop_get_write f j sj (if qj ∈ valid then qj else "[ngram]")
      Gpre Gpost ms mpre mpost _ hGpost hmdec hpost
      (by rw [List.length_replicate]; exact hjlen)
  refine ⟨main, ?_⟩
  intro hne
  have hmlen : (mergeLoop f (partitionLoop valid 0 batch [])
      (List.replicate batch.length none)).length = batch.length := by
    rw [mergeLoop_length, List.length_replicate]
  have hallsome : ∀ x ∈ mergeLoop f (partitionLoop valid 0 batch [])
      (List.replicate batch.length none), x ≠ none := by
    intro x hx hxn
    obtain ⟨n, hn⟩ := List.get_of_mem hx
    have hnlt : n.1 < batch.length := by
      have h2 := n.2
      omega
    obtain ⟨sj, hsj⟩ : ∃ sj, batch[n.1]? = some sj :=
      ⟨batch[n.1], List.getElem?_eq_getElem hnlt⟩
    have hsome : sj.spec_decode_params ≠ none := by
      refine hall sj ?_
      obtain ⟨hlt2, hg⟩ := List.getElem?_eq_some_iff.mp hsj
      rw [← hg]
      exact List.getElem_mem hlt2
    obtain ⟨qj, hqj⟩ := Option.ne_none_iff_exists'.mp hsome
    have hmj := main n.1 sj qj hsj hqj
    have hxval : (mergeLoop f (partitionLoop valid 0 batch [])
        (List.replicate batch.length none))[n.1]? = some x := by
      rw [List.getElem?_eq_getElem n.2]
      exact congrArg some (by rw [← hn]; rfl)
    rw [hxval, Option.some.injEq] at hmj
    rw [hxn] at hmj
    cases hmj
  obtain ⟨out, ho, hlen, hget⟩ := stackList_all_some _ hallsome
  refine ⟨out, ?_, by rw [hlen, hmlen], ?_⟩
  · show stackAll (mergeLoop f (partitionLoop valid 0 batch [])
        (List.replicate batch.length none)) = some out
    have hmne : mergeLoop f (partitionLoop valid 0 batch [])
        (List.replicate batch.length none) ≠ [] := by
      intro hc
      have := hmlen
      rw [hc] at this
      simp at this
      exact hne (List.length_eq_zero.mp this.symm)
    cases hmm : mergeLoop f (partitionLoop valid 0 batch [])
        (List.replicate batch.length none) with
    | nil => exact absurd hmm hmne
    | cons y ys =>
      rw [show stackAll (y :: ys) = stackList (y :: ys) from rfl, ← hmm]
      exact ho
  · intro j sj qj hbj hsq
    exact hget j _ (main j sj qj hbj hsq)

/-- Closed instance of `combined_order_preserving` on the assignment pattern
`[A, [ngram], A, B]` with backends tagging each output with their id. -/
theorem combined_order_preserving_witness :
    (∀ t ∈ [SeqItem.mk (some "A") 0, SeqItem.mk (some "[ngram]") 1,
        SeqItem.mk (some "A") 2, SeqItem.mk (some "B") 3],
      t.spec_decode_params ≠ none) ∧
    (∃ out, (get_combined_spec_proposals (fun p _ => p) ["[ngram]", "A", "B"]
        [SeqItem.mk (some "A") 0, SeqItem.mk (some "[ngram]") 1,
          SeqItem.mk (some "A") 2, SeqItem.mk (some "B") 3]).1 = some out ∧
      out.length = [SeqItem.mk (some "A") 0, SeqItem.mk (some "[ngram]") 1,
          SeqItem.mk (some "A") 2, SeqItem.mk (some "B") 3].length ∧
      ∀ (j : Nat) (sj : SeqItem) (qj : String),
        [SeqItem.mk (some "A") 0, SeqItem.mk (some "[ngram]") 1,
          SeqItem.mk (some "A") 2, SeqItem.mk (some "B") 3][j]? = some sj →
        sj.spec_decode_params = some qj →
        out[j]? = some (if qj ∈ ["[ngram]", "A", "B"] then qj else "[ngram]")) ∧
    (get_combined_spec_proposals (fun p _ => p) ["[ngram]", "A", "B"]
        [SeqItem.mk (some "A") 0, SeqItem.mk (some "[ngram]") 1,
          SeqItem.mk (some "A") 2, SeqItem.mk (some "B") 3]).1
      = some ["A", "[ngram]", "A", "B"] :=
  ⟨by decide,
   (combined_order_preserving (fun p _ => p) ["[ngram]", "A", "B"]
      [SeqItem.mk (some "A") 0, SeqItem.mk (some "[ngram]") 1,
        SeqItem.mk (some "A") 2, SeqItem.mk (some "B") 3] (by decide)).2
     (by decide),
   by decide⟩

end MultiProposers
